import Mathlib

/-!
Verification of the PB-to-plan translator in `planner/core/pb_to_plan.go`.

The file shallowly embeds the translator's data model and operations:

* the Time-Range Decoder (`decodeTimeRanges` / `decodeToTime`),
* the Column Resolver (`convertColumnInfo`),
* the scan- and aggregation-schema builders (`buildTableScanSchema`,
  `buildAggSchema`) with the session column-identifier allocator threaded
  explicitly as a counter,
* the Executor Decoder's chaining loop (`Build`),
* the Predicate Pushdown Pass (`predicatePushDown`) together with the
  column rebinding performed for an extractor-bearing `PhysicalMemTable`.

External collaborators (the row-key codec `tablecodec.DecodeRowKey`, the
datum decoder inside `decodeToTime`, the expression decoder, and the
extractor's `Extract`) are not part of this file's source; they appear as
function parameters, so every theorem quantifies over their behaviour.
-/

set_option autoImplicit false

deriving instance DecidableEq for Except

namespace PbToPlan

/-- Field type metadata carried by catalog columns (`types.FieldType`).
Only its identity matters to the translator, so it is a wrapper; `Clone`
on a pure value is the identity. -/
structure FieldType where
  tp : Nat
  deriving DecidableEq, Repr

/-- A plan-level output column (`expression.Column`): the session-unique
synthetic identifier, the source catalog column id (0 for synthesized
aggregate outputs), the positional index used by predicate rebinding, and
the resolved field type. -/
structure Column where
  uniqueID : Nat
  id : Int
  index : Nat
  retType : FieldType
  deriving DecidableEq, Repr

/-- Catalog column metadata (`model.ColumnInfo`). -/
structure ColumnInfo where
  id : Int
  name : String
  fieldType : FieldType
  deriving DecidableEq, Repr

/-- Catalog table metadata (`model.TableInfo`): name plus ordered column
list. -/
structure TableInfo where
  name : String
  columns : List ColumnInfo
  deriving DecidableEq, Repr

/-- A requested wire column (`tipb.ColumnInfo`); only the id is consulted
by the resolver. -/
structure PbColumnInfo where
  columnId : Int
  deriving DecidableEq, Repr

/-- An aggregate function descriptor (`aggregation.AggFuncDesc`); the
schema builder reads only its result type. -/
structure AggFuncDesc where
  retTp : FieldType
  deriving DecidableEq, Repr

/-- Errors produced by the column resolver. -/
inductive BuildErr where
  | columnNotFound (colId : Int) (table : String)
  deriving DecidableEq, Repr

/-- Raw key bytes. -/
abbrev Bytes := List Nat

/-- A raw coprocessor key range (`coprocessor.KeyRange`); `endR` is the
source's `End` field (`end` is a Lean keyword). -/
structure KeyRange where
  start : Bytes
  endR : Bytes
  deriving DecidableEq, Repr

/-- The session allocator `AllocPlanColumnID`: an atomic increment
returning the new value, modelled by threading the counter. -/
def allocPlanColumnID (ctr : Nat) : Nat × Nat :=
  (ctr + 1, ctr + 1)

/-- The Column Resolver `convertColumnInfo`: for each requested wire
column, linear-search the catalog column list for the first matching id
(the source breaks on the first match); a miss aborts with
`ColumnNotFound(columnId, tableName)`.  On success it returns the resolved
catalog columns and the cloned field types, both in request order (the
type list becomes `b.tps`, the decoding context). -/
def convertColumnInfo (tblInfo : TableInfo) :
    List PbColumnInfo → Except BuildErr (List ColumnInfo × List FieldType)
  | [] => Except.ok ([], [])
  | col :: rest =>
    match tblInfo.columns.find? (fun ci => ci.id == col.columnId) with
    | none => Except.error (BuildErr.columnNotFound col.columnId tblInfo.name)
    | some ci =>
      match convertColumnInfo tblInfo rest with
      | Except.error e => Except.error e
      | Except.ok (cs, ts) => Except.ok (ci :: cs, ci.fieldType :: ts)

/-- Inner loop of `buildTableScanSchema`: for one catalog column `col`,
walk the resolved request columns; every entry whose id matches `col.ID`
appends a fresh schema column built from the catalog column (`col.ID`,
`&col.FieldType`) with a newly allocated unique id.  The source's
`if col.ID != colInfo.ID { continue }` is the `if` guard here. -/
def scanSchemaInner (col : ColumnInfo) :
    List ColumnInfo → Nat → List Column × Nat
  | [], ctr => ([], ctr)
  | ci :: rest, ctr =>
    if ci.id == col.id then
      let (u, ctr1) := allocPlanColumnID ctr
      let (more, ctr2) := scanSchemaInner col rest ctr1
      ({ uniqueID := u, id := col.id, index := 0, retType := col.fieldType } :: more, ctr2)
    else scanSchemaInner col rest ctr

/-- The identifiers the session allocator hands out in `k` successive
calls starting from counter value `ctr`: `ctr+1, …, ctr+k`.  Used to
state freshness and uniqueness of allocated schema column ids. -/
def idsFrom (ctr k : Nat) : List Nat :=
  (List.range k).map (fun i => ctr + 1 + i)

/-- Outer loop of `buildTableScanSchema` over the catalog column list. -/
def scanSchemaOuter (columns : List ColumnInfo) :
    List ColumnInfo → Nat → List Column × Nat
  | [], ctr => ([], ctr)
  | col :: rest, ctr =>
    let (s, ctr1) := scanSchemaInner col columns ctr
    let (more, ctr2) := scanSchemaOuter columns rest ctr1
    (s ++ more, ctr2)

/-- `buildTableScanSchema`: outer loop over the catalog table's column
list (so the schema is in catalog order, not request order), inner loop
over the resolved request columns. -/
def buildTableScanSchema (tblInfo : TableInfo) (columns : List ColumnInfo)
    (ctr : Nat) : List Column × Nat :=
  scanSchemaOuter columns tblInfo.columns ctr

/-- `buildAggSchema`: one schema column per aggregate function, in
function order, each with a fresh unique id, catalog id 0 (the source
leaves `ID` unset) and the function's result type.  The group-by
expressions only size the initial capacity; they contribute no columns. -/
def buildAggSchema {α : Type} (aggFuncs : List AggFuncDesc) (groupBys : List α)
    (ctr : Nat) : List Column × Nat :=
  match aggFuncs with
  | [] => ([], ctr)
  | agg :: rest =>
    let (u, ctr1) := allocPlanColumnID ctr
    let (more, ctr2) := buildAggSchema rest groupBys ctr1
    ({ uniqueID := u, id := 0, index := 0, retType := agg.retTp } :: more, ctr2)

/-- The length guard of `decodeTimeRanges`, exactly as in the source:
`len(kr.Start) >= tablecodec.RecordRowKeyLen && len(kr.Start) >=
tablecodec.RecordRowKeyLen`.  Note that the source tests `kr.Start`
twice and never tests `kr.End`. -/
def lengthCheck (recordRowKeyLen : Nat) (kr : KeyRange) : Bool :=
  decide (recordRowKeyLen ≤ kr.start.length) &&
    decide (recordRowKeyLen ≤ kr.start.length)

section TimeRange

variable {Handle Err : Type}

/-- One boundary of `decodeTimeRanges`: `DecodeRowKey` failure is not
fatal (the time value defaults to 0); on success the handle is passed to
`decodeToTime`, whose failure aborts with that error.  `drk` models
`tablecodec.DecodeRowKey` and `dtt` models `(*PBPlanBuilder).decodeToTime`
(both decode through external codec collaborators). -/
def decodeSide (drk : Bytes → Option Handle) (dtt : Handle → Except Err Int)
    (bs : Bytes) : Except Err Int :=
  match drk bs with
  | none => Except.ok 0
  | some h => dtt h

/-- `(*PBPlanBuilder).decodeTimeRanges`: ranges passing the length guard
contribute one `(startTime, endTime)` pair, in input order; ranges failing
the guard are skipped. -/
def decodeTimeRanges (recordRowKeyLen : Nat) (drk : Bytes → Option Handle)
    (dtt : Handle → Except Err Int) :
    List KeyRange → Except Err (List (Int × Int))
  | [] => Except.ok []
  | kr :: rest =>
    if lengthCheck recordRowKeyLen kr then
      match decodeSide drk dtt kr.start with
      | Except.error e => Except.error e
      | Except.ok startTime =>
        match decodeSide drk dtt kr.endR with
        | Except.error e => Except.error e
        | Except.ok endTime =>
          match decodeTimeRanges recordRowKeyLen drk dtt rest with
          | Except.error e => Except.error e
          | Except.ok krs => Except.ok ((startTime, endTime) :: krs)
    else decodeTimeRanges recordRowKeyLen drk dtt rest

/-- The value a boundary contributes when no `decodeToTime` error occurs:
0 when the row key fails to decode, otherwise the decoded time. -/
def sideVal (drk : Bytes → Option Handle) (dtt : Handle → Except Err Int)
    (bs : Bytes) : Int :=
  match drk bs with
  | none => 0
  | some h =>
    match dtt h with
    | Except.ok t => t
    | Except.error _ => 0

/-- The pair a surviving range contributes. -/
def rangeVal (drk : Bytes → Option Handle) (dtt : Handle → Except Err Int)
    (kr : KeyRange) : Int × Int :=
  (sideVal drk dtt kr.start, sideVal drk dtt kr.endR)

end TimeRange

/-- Concrete row-key decoder for witnesses: decodes a nonempty byte string
to its length. -/
def drkW : Bytes → Option Nat :=
  fun bs => if bs.length = 0 then none else some bs.length

/-- Concrete time decoder for witnesses: always succeeds. -/
def dttW : Nat → Except String Int :=
  fun n => Except.ok (Int.ofNat n)

/-- Concrete key ranges for the C1 witness: the first range has a start
passing the length guard but an end whose row key fails to decode; the
second fails the guard; the third decodes on both sides. -/
def krsW : List KeyRange :=
  [⟨[7], []⟩, ⟨[], [3]⟩, ⟨[5, 6], [8]⟩]

/-- Concrete row-key decoder for the C2 evaluation: fails exactly on byte
strings shorter than 2 (as `DecodeRowKey` fails on truncated keys). -/
def drkC : Bytes → Option Bytes :=
  fun bs => if 2 ≤ bs.length then some bs else none

/-- Concrete time decoder for the C2 evaluation. -/
def dttC : Bytes → Except String Int :=
  fun _ => Except.ok 7

section PlanModel

variable {α : Type}

/-- The payload of one physical plan node, one constructor per executor
kind the decoder dispatches on.  Predicates/expressions are an opaque
type `α` (they are produced by the external expression decoder and only
moved around by this translator). -/
inductive NodeKind (α : Type) where
  | memTable (hasExtractor : Bool) (schema : List Column)
  | selection (conds : List α)
  | topN (byItems : List (α × Bool)) (count : Nat)
  | limit (count : Nat)
  | aggregation (aggFuncs : List AggFuncDesc) (groupBys : List α)
      (schema : List Column) (isStreamAgg : Bool)
  | simpleWrapper (connID : Nat) (query : String)
  deriving DecidableEq, Repr

/-- A physical plan: a linear chain where every node has at most one
child (`nil` = no child), as produced by `Build`'s `SetChildren`
chaining. -/
inductive PPlan (α : Type) where
  | nil
  | node (kind : NodeKind α) (child : PPlan α)
  deriving DecidableEq, Repr

/-- Node payloads from the root downwards (the deepest node is last). -/
def nodeKinds : PPlan α → List (NodeKind α)
  | PPlan.nil => []
  | PPlan.node k c => k :: nodeKinds c

/-- Number of nodes in a chain. -/
def planSize : PPlan α → Nat
  | PPlan.nil => 0
  | PPlan.node _ c => planSize c + 1

/-- Chain a list of built nodes bottom-up onto `src`, as `Build`'s loop
does: each new node receives the previously built chain as its only
child. -/
def buildChain : List (NodeKind α) → PPlan α → PPlan α
  | [], src => src
  | k :: rest, src => buildChain rest (PPlan.node k src)

/-- The Executor Decoder loop of `(*PBPlanBuilder).Build` before the
pushdown call: translate each wire descriptor with `build1`
(`pbToPhysicalPlan`), abort on the first error, and chain the results
(`curr.SetChildren(src)`). -/
def buildLoop {Exec E : Type} (build1 : Exec → Except E (NodeKind α)) :
    List Exec → PPlan α → Except E (PPlan α)
  | [], src => Except.ok src
  | ex :: rest, src =>
    match build1 ex with
    | Except.error err => Except.error err
    | Except.ok k => buildLoop build1 rest (PPlan.node k src)

/--
`(*PBPlanBuilder).predicatePushDown`, translated case by case:

* `nil` returns the incoming predicates and plan unchanged;
* a `PhysicalMemTable` without extractor returns its input unchanged;
  with an extractor the block "build field names, rebind the predicate
  columns' unique ids in place, call `Extractor.Extract`" is the
  function `e` applied to the scan schema and the incoming predicates
  (the rebind mutates the predicate objects in place, so as a predicate
  list transformation the block is exactly a function of schema and
  predicates; its index arithmetic is modelled by `rebindColumn` below);
  the scan node itself is returned unchanged;
* a `PhysicalSelection` recurses into its child with its *own*
  conditions; a non-empty residual replaces the conditions and the child
  is rewired, an empty residual elides the node; either way the call
  returns its incoming predicates;
* every other kind recurses into the child with `nil` predicates,
  discards the residual and rewires the child.  (The source guards the
  recursion with `len(children) > 0`; on an absent child the guarded
  body would rewire nothing, which coincides with recursing into `nil`.)
-/
def predicatePushDown (e : List Column → List α → List α) :
    PPlan α → List α → List α × PPlan α
  | PPlan.nil, preds => (preds, PPlan.nil)
  | PPlan.node (NodeKind.memTable ext sch) c, preds =>
    if ext then (e sch preds, PPlan.node (NodeKind.memTable ext sch) c)
    else (preds, PPlan.node (NodeKind.memTable ext sch) c)
  | PPlan.node (NodeKind.selection conds) c, preds =>
    let r := predicatePushDown e c conds
    if r.1.isEmpty then (preds, r.2)
    else (preds, PPlan.node (NodeKind.selection r.1) r.2)
  | PPlan.node (NodeKind.topN b n) c, preds =>
    (preds, PPlan.node (NodeKind.topN b n) (predicatePushDown e c []).2)
  | PPlan.node (NodeKind.limit n) c, preds =>
    (preds, PPlan.node (NodeKind.limit n) (predicatePushDown e c []).2)
  | PPlan.node (NodeKind.aggregation fs gs sch st) c, preds =>
    (preds,
      PPlan.node (NodeKind.aggregation fs gs sch st) (predicatePushDown e c []).2)
  | PPlan.node (NodeKind.simpleWrapper cid q) c, preds =>
    (preds, PPlan.node (NodeKind.simpleWrapper cid q) (predicatePushDown e c []).2)

/-- The arguments of every `Extract` call a `predicatePushDown` run
performs (ghost companion with the same recursion structure): the schema
passed and the predicate list handed to the extractor. -/
def extractCalls : PPlan α → List α → List (List Column × List α)
  | PPlan.nil, _ => []
  | PPlan.node (NodeKind.memTable ext sch) _, preds =>
    if ext then [(sch, preds)] else []
  | PPlan.node (NodeKind.selection conds) c, _ => extractCalls c conds
  | PPlan.node (NodeKind.topN _ _) c, _ => extractCalls c []
  | PPlan.node (NodeKind.limit _) c, _ => extractCalls c []
  | PPlan.node (NodeKind.aggregation _ _ _ _) c, _ => extractCalls c []
  | PPlan.node (NodeKind.simpleWrapper _ _) c, _ => extractCalls c []

/-- All predicates sitting in some `Selection` node's condition list. -/
def selConds : PPlan α → List α
  | PPlan.nil => []
  | PPlan.node (NodeKind.selection conds) c => conds ++ selConds c
  | PPlan.node _ c => selConds c

/-- Whether the root node is a `Selection`. -/
def isSelectionRoot : PPlan α → Bool
  | PPlan.node (NodeKind.selection _) _ => true
  | _ => false

/-- No `Selection` node's direct child is another `Selection` node. -/
def noAdjSel : PPlan α → Bool
  | PPlan.nil => true
  | PPlan.node (NodeKind.selection _) c => !isSelectionRoot c && noAdjSel c
  | PPlan.node _ c => noAdjSel c

/-- The rebinding step for one predicate column,
`cols[i].UniqueID = schemaCols[cols[i].Index].UniqueID`: the schema
column array is indexed by the predicate column's positional index with
no bounds check; `none` models the out-of-range panic. -/
def rebindColumn (schemaCols : List Column) (c : Column) : Option Column :=
  match schemaCols.get? c.index with
  | some sc => some { c with uniqueID := sc.uniqueID }
  | none => none

/-- The rebinding loop over all columns extracted from the incoming
predicates. -/
def rebindColumns (schemaCols : List Column) :
    List Column → Option (List Column)
  | [] => some []
  | c :: rest =>
    match rebindColumn schemaCols c with
    | none => none
    | some c1 =>
      match rebindColumns schemaCols rest with
      | none => none
      | some cs => some (c1 :: cs)

end PlanModel

/-- Concrete per-descriptor builder for the C5 witness: fails on the
descriptor `99`, otherwise builds a `Limit` node. -/
def build1W : Nat → Except String (NodeKind Nat) :=
  fun n => if n = 99 then Except.error "builder failed"
           else Except.ok (NodeKind.limit n)

/-- The node each successful descriptor maps to in the C5 witness. -/
def fW : Nat → NodeKind Nat :=
  fun n => NodeKind.limit n

/-- Concrete catalog table for the C6 witness. -/
def tblW : TableInfo :=
  ⟨"slow_query", [⟨1, "c1", ⟨3⟩⟩, ⟨2, "time", ⟨12⟩⟩, ⟨3, "query", ⟨15⟩⟩]⟩

/-- Concrete scan schema columns for the C10 witness. -/
def schemaColsW : List Column :=
  [⟨101, 1, 0, ⟨3⟩⟩, ⟨102, 2, 1, ⟨12⟩⟩]

/-- In-bounds predicate column for the C10 witness (index 1 < 2). -/
def colInW : Column := ⟨7, 0, 1, ⟨0⟩⟩

/-- Out-of-bounds predicate column for the C10 witness (index 5 ≥ 2). -/
def colOutW : Column := ⟨7, 0, 5, ⟨0⟩⟩

/-- An extractor behaviour that consumes every predicate (as the slow-log
extractor does when all conditions are recognised time bounds). -/
def eConsume : List Column → List Nat → List Nat :=
  fun _ _ => []

/-- An extractor behaviour that consumes exactly the predicate `0` (a
recognisable condition) and leaves everything else as residual.  It is a
pure, idempotent sublist-returning function. -/
def eFilterZero : List Column → List Nat → List Nat :=
  fun _ l => l.filter (fun x => x != 0)

/-- The plan chain of the C3 witness: one Selection above an
extractor-bearing scan. -/
def pW3 : PPlan Nat :=
  PPlan.node (NodeKind.selection [5])
    (PPlan.node (NodeKind.memTable true []) PPlan.nil)

/-- The chain refuting C9: two stacked Selections above an
extractor-bearing scan.  The first pass consumes the inner Selection's
condition `0` entirely and elides that node, leaving the outer Selection
directly above the scan; the second pass then absorbs the outer `0` as
well. -/
def pCtr : PPlan Nat :=
  PPlan.node (NodeKind.selection [0, 1])
    (PPlan.node (NodeKind.selection [0])
      (PPlan.node (NodeKind.memTable true []) PPlan.nil))

/-- The plan chain of the amended-C9 witness: a single Selection above an
extractor-bearing scan (no adjacent Selections). -/
def pW9 : PPlan Nat :=
  PPlan.node (NodeKind.selection [7])
    (PPlan.node (NodeKind.memTable true []) PPlan.nil)

section TimeRangeTheorems

variable {Handle Err : Type}

theorem decodeSide_ok (drk : Bytes → Option Handle)
    (dtt : Handle → Except Err Int) (bs : Bytes)
    (h : ∀ hd, drk bs = some hd → (dtt hd).isOk = true) :
    decodeSide drk dtt bs = Except.ok (sideVal drk dtt bs) := by
  unfold decodeSide sideVal
  cases hbs : drk bs with
  | none => rfl
  | some hd =>
    have hh := h hd hbs
    cases hdt : dtt hd with
    | ok t => simp [hdt]
    | error e => rw [hdt] at hh; simp [Except.isOk, Except.toBool] at hh

/--
C1: for every key range that passes the length guard, a row-key decode
failure on either boundary is not fatal: that side's time value becomes 0
and decoding continues.  Assuming `decodeToTime` succeeds on every handle
that does decode (its failure is the only fatal path), `decodeTimeRanges`
returns `ok` with one pair per surviving range, and a boundary whose row
key fails to decode contributes exactly 0.
-/
theorem decodeTimeRanges_decodeFailure_notFatal (recordRowKeyLen : Nat)
    (drk : Bytes → Option Handle) (dtt : Handle → Except Err Int)
    (krs : List KeyRange)
    (hok : ∀ kr ∈ krs, lengthCheck recordRowKeyLen kr = true →
      (∀ hd, drk kr.start = some hd → (dtt hd).isOk = true) ∧
      (∀ hd, drk kr.endR = some hd → (dtt hd).isOk = true)) :
    decodeTimeRanges recordRowKeyLen drk dtt krs =
      Except.ok ((krs.filter (lengthCheck recordRowKeyLen)).map
        (rangeVal drk dtt)) ∧
    (∀ bs, drk bs = none → sideVal drk dtt bs = 0) := by
  constructor
  · induction krs with
    | nil => rfl
    | cons kr rest ih =>
      have hkr := hok kr (List.mem_cons_self kr rest)
      have hrest : ∀ kr ∈ rest, lengthCheck recordRowKeyLen kr = true →
          (∀ hd, drk kr.start = some hd → (dtt hd).isOk = true) ∧
          (∀ hd, drk kr.endR = some hd → (dtt hd).isOk = true) :=
        fun kr hm => hok kr (List.mem_cons_of_mem _ hm)
      cases hc : lengthCheck recordRowKeyLen kr with
      | false =>
        rw [decodeTimeRanges, hc]
        simp only [List.filter_cons, hc, ih hrest, Bool.false_eq_true,
          if_false]
      | true =>
        have h1 := (hkr hc).1
        have h2 := (hkr hc).2
        rw [decodeTimeRanges, hc]
        simp only [if_true]
        rw [decodeSide_ok drk dtt kr.start h1, decodeSide_ok drk dtt kr.endR h2,
          ih hrest]
        simp [List.filter_cons, hc, rangeVal]
  · intro bs h
    unfold sideVal
    rw [h]

/-- Witness for C1 at concrete inputs: the first range's end boundary and
the third range survive; the failing end contributes 0; the second range
is dropped by the guard; the whole call returns `ok`. -/
theorem decodeTimeRanges_decodeFailure_notFatal_witness :
    decodeTimeRanges 1 drkW dttW krsW = Except.ok [(1, 0), (2, 1)] ∧
    sideVal drkW dttW [] = 0 := by
  have h := decodeTimeRanges_decodeFailure_notFatal 1 drkW dttW krsW
    (by decide)
  exact ⟨h.1.trans (by decide), h.2 [] (by decide)⟩

/--
C2 (code bug evaluation): the source length-checks `kr.Start` twice and
never checks `kr.End`.  A range whose start is long enough but whose end
is shorter than the record-key length (here 2) is *not* omitted: the end's
row key fails to decode and the range contributes a pair with end time 0.
Under the claim, the output would be the empty list.
-/
theorem decodeTimeRanges_shortEnd_notOmitted :
    decodeTimeRanges 2 drkC dttC [⟨[1, 1], [9]⟩] = Except.ok [(7, 0)] ∧
    lengthCheck 2 ⟨[1, 1], [9]⟩ = true ∧ ¬ (2 ≤ ([9] : Bytes).length) := by
  decide

end TimeRangeTheorems

section SchemaTheorems

/--
C8: an aggregation's output schema has exactly one column per aggregate
function, in function order (carrying that function's result type), and
is independent of the group-by expressions — they contribute no columns.
`pbToAgg` attaches this same schema in both hash and streaming mode.
-/
theorem buildAggSchema_oneColumnPerAggFunc {α : Type}
    (aggFuncs : List AggFuncDesc) (groupBys groupBys' : List α) (ctr : Nat) :
    (buildAggSchema aggFuncs groupBys ctr).1.length = aggFuncs.length ∧
    (buildAggSchema aggFuncs groupBys ctr).1.map Column.retType
      = aggFuncs.map AggFuncDesc.retTp ∧
    buildAggSchema aggFuncs groupBys ctr = buildAggSchema aggFuncs groupBys' ctr := by
  induction aggFuncs generalizing ctr with
  | nil => exact ⟨rfl, rfl, rfl⟩
  | cons a rest ih =>
    obtain ⟨h1, h2, h3⟩ := ih (ctr + 1)
    refine ⟨?_, ?_, ?_⟩
    · simp [buildAggSchema, allocPlanColumnID, h1]
    · simp [buildAggSchema, allocPlanColumnID, h2]
    · simp [buildAggSchema, allocPlanColumnID, h3]

/--
C10: predicate-column rebinding at an extractor-bearing scan indexes the
schema column array positionally with no bounds check: a column whose
index is below the schema length receives that schema column's unique
identifier; a column whose index reaches the schema length makes the
access out of range (`none` models the panic), for a single column and
for the loop over all extracted columns.
-/
theorem rebind_positional_unchecked (schemaCols : List Column) (c : Column)
    (cols : List Column) :
    (∀ h : c.index < schemaCols.length,
      rebindColumn schemaCols c
        = some { c with uniqueID := (schemaCols.get ⟨c.index, h⟩).uniqueID }) ∧
    (schemaCols.length ≤ c.index → rebindColumn schemaCols c = none) ∧
    ((∀ x ∈ cols, x.index < schemaCols.length) →
      rebindColumns schemaCols cols
        = some (cols.map (fun x =>
            { x with uniqueID := ((schemaCols.get? x.index).getD x).uniqueID }))) ∧
    ((∃ x ∈ cols, schemaCols.length ≤ x.index) →
      rebindColumns schemaCols cols = none) := by
  have hin : ∀ x : Column, x.index < schemaCols.length →
      rebindColumn schemaCols x
        = some { x with uniqueID := ((schemaCols.get? x.index).getD x).uniqueID } := by
    intro x hx
    unfold rebindColumn
    rw [List.get?_eq_get hx]
    rfl
  have hout : ∀ x : Column, schemaCols.length ≤ x.index →
      rebindColumn schemaCols x = none := by
    intro x hx
    unfold rebindColumn
    rw [List.get?_eq_none.mpr hx]
  refine ⟨?_, hout c, ?_, ?_⟩
  · intro h
    have := hin c h
    rw [this, List.get?_eq_get h]
    rfl
  · intro hall
    induction cols with
    | nil => rfl
    | cons x rest ih =>
      have hx := hall x (List.mem_cons_self x rest)
      have hrest := ih (fun y hy => hall y (List.mem_cons_of_mem _ hy))
      rw [List.map_cons, rebindColumns, hin x hx, hrest]
  · intro hex
    induction cols with
    | nil => obtain ⟨x, hx, _⟩ := hex; exact absurd hx (List.not_mem_nil x)
    | cons x rest ih =>
      obtain ⟨y, hy, hylen⟩ := hex
      rcases List.mem_cons.mp hy with hyx | hyr
      · subst hyx
        rw [rebindColumns, hout y hylen]
      · rw [rebindColumns]
        cases hrc : rebindColumn schemaCols x with
        | none => rfl
        | some c1 => rw [ih ⟨y, hyr, hylen⟩]

/-- Witness for C10 at concrete inputs: `colInW` (index 1, schema length
2) is rebound to the schema column's unique id 102; `colOutW` (index 5)
makes the access out of range; the loop over `[colInW, colOutW]` is out
of range as a whole. -/
theorem rebind_positional_unchecked_witness :
    rebindColumn schemaColsW colInW = some ⟨102, 0, 1, ⟨0⟩⟩ ∧
    rebindColumn schemaColsW colOutW = none ∧
    rebindColumns schemaColsW [colInW, colOutW] = none := by
  have h1 := (rebind_positional_unchecked schemaColsW colInW []).1 (by decide)
  have h2 := (rebind_positional_unchecked schemaColsW colOutW []).2.1 (by decide)
  have h3 := (rebind_positional_unchecked schemaColsW colInW [colInW, colOutW]).2.2.2
    ⟨colOutW, by decide, by decide⟩
  exact ⟨h1.trans (by decide), h2, h3⟩

end SchemaTheorems

section PushdownTheorems

variable {α : Type}

/--
C4: on a `Selection` node the pass recurses into the child with the
Selection's own conditions as the incoming predicates; a non-empty
residual is installed as the Selection's new (exact) condition list with
the rewritten child rewired beneath it; an empty residual elides the
Selection and yields the rewritten child; in both cases the call returns
its own incoming predicates unchanged.
-/
theorem predicatePushDown_selection (e : List Column → List α → List α)
    (conds : List α) (c : PPlan α) (preds : List α) :
    predicatePushDown e (PPlan.node (NodeKind.selection conds) c) preds
      = (preds,
         if (predicatePushDown e c conds).1.isEmpty
         then (predicatePushDown e c conds).2
         else PPlan.node (NodeKind.selection (predicatePushDown e c conds).1)
                (predicatePushDown e c conds).2) := by
  rw [predicatePushDown]
  split <;> rfl

end PushdownTheorems

section BuildTheorems

variable {α Exec E : Type}

theorem buildLoop_allOk (build1 : Exec → Except E (NodeKind α))
    (f : Exec → NodeKind α) :
    ∀ (exs : List Exec) (src : PPlan α),
      (∀ ex ∈ exs, build1 ex = Except.ok (f ex)) →
      buildLoop build1 exs src = Except.ok (buildChain (exs.map f) src) := by
  intro exs
  induction exs with
  | nil => intro src _; rfl
  | cons ex rest ih =>
    intro src h
    rw [buildLoop, h ex (List.mem_cons_self ex rest)]
    exact ih (PPlan.node (f ex) src) (fun x hx => h x (List.mem_cons_of_mem _ hx))

theorem nodeKinds_buildChain :
    ∀ (ks : List (NodeKind α)) (src : PPlan α),
      nodeKinds (buildChain ks src) = ks.reverse ++ nodeKinds src := by
  intro ks
  induction ks with
  | nil => intro src; rfl
  | cons k rest ih =>
    intro src
    rw [buildChain, ih (PPlan.node k src)]
    simp [nodeKinds]

theorem planSize_eq_kinds_length : ∀ p : PPlan α, planSize p = (nodeKinds p).length := by
  intro p
  induction p with
  | nil => rfl
  | node k c ih => simp [planSize, nodeKinds, ih]

theorem buildLoop_firstError (build1 : Exec → Except E (NodeKind α)) :
    ∀ (pre : List Exec) (ex : Exec) (rest : List Exec) (err : E) (src : PPlan α),
      (∀ x ∈ pre, ∃ k, build1 x = Except.ok k) →
      build1 ex = Except.error err →
      buildLoop build1 (pre ++ ex :: rest) src = Except.error err := by
  intro pre
  induction pre with
  | nil =>
    intro ex rest err src _ herr
    rw [List.nil_append, buildLoop, herr]
  | cons x pre1 ih =>
    intro ex rest err src hok herr
    obtain ⟨k, hk⟩ := hok x (List.mem_cons_self x pre1)
    rw [List.cons_append, buildLoop, hk]
    exact ih ex rest err (PPlan.node k src)
      (fun y hy => hok y (List.mem_cons_of_mem _ hy)) herr

/--
C5: if every per-descriptor builder succeeds on a length-`N` descriptor
list, the chain `Build` assembles before pushdown has exactly `N` nodes
in wire order — the node list read from the root is the reversed wire
list, so the first descriptor is the deepest leaf (each node has at most
one child by the chain structure itself); on the first builder error the
build aborts with exactly that error and produces no plan.
-/
theorem build_preChain_wireOrder (build1 : Exec → Except E (NodeKind α))
    (f : Exec → NodeKind α) :
    (∀ exs : List Exec,
      (∀ ex ∈ exs, build1 ex = Except.ok (f ex)) →
      buildLoop build1 exs PPlan.nil = Except.ok (buildChain (exs.map f) PPlan.nil) ∧
      nodeKinds (buildChain (exs.map f) PPlan.nil) = (exs.map f).reverse ∧
      planSize (buildChain (exs.map f) PPlan.nil) = exs.length) ∧
    (∀ (pre : List Exec) (ex : Exec) (rest : List Exec) (err : E),
      (∀ x ∈ pre, ∃ k, build1 x = Except.ok k) →
      build1 ex = Except.error err →
      buildLoop build1 (pre ++ ex :: rest) PPlan.nil = Except.error err) := by
  constructor
  · intro exs h
    refine ⟨buildLoop_allOk build1 f exs PPlan.nil h, ?_, ?_⟩
    · rw [nodeKinds_buildChain]
      simp [nodeKinds]
    · rw [planSize_eq_kinds_length, nodeKinds_buildChain]
      simp [nodeKinds]
  · intro pre ex rest err hok herr
    exact buildLoop_firstError build1 pre ex rest err PPlan.nil hok herr

/-- Witness for C5 at concrete inputs: wire list `[2, 3]` (all builders
succeed) yields the two-node chain rooted at the node of descriptor 3
with descriptor 2's node as the deepest leaf; wire list `[2, 99, 3]`
aborts with the error of descriptor 99. -/
theorem build_preChain_wireOrder_witness :
    buildLoop build1W [2, 3] PPlan.nil
      = Except.ok (PPlan.node (NodeKind.limit 3)
          (PPlan.node (NodeKind.limit 2) PPlan.nil)) ∧
    nodeKinds ((PPlan.node (NodeKind.limit 3)
          (PPlan.node (NodeKind.limit 2) PPlan.nil)) : PPlan Nat)
      = [NodeKind.limit 3, NodeKind.limit 2] ∧
    buildLoop build1W [2, 99, 3] PPlan.nil = Except.error "builder failed" := by
  have h := build_preChain_wireOrder build1W fW
  have h1 := h.1 [2, 3] (by decide)
  have h2 := h.2 [2] 99 [3] "builder failed"
    (fun x hx => ⟨NodeKind.limit x, by fin_cases hx; decide⟩) (by decide)
  exact ⟨h1.1.trans (by decide), by decide, h2⟩

end BuildTheorems

section ResolverTheorems

/--
C6: column resolution is all-or-nothing.  If every requested wire column
id occurs in the catalog table's column list, the resolver succeeds and
returns the resolved catalog columns and their (cloned) field types in
request order; otherwise it fails with `ColumnNotFound` naming the first
missing column id together with the table name — an error that
`pbToTableScan` propagates, failing the whole build with no partial
schema.
-/
theorem convertColumnInfo_allOrNothing (tbl : TableInfo) :
    (∀ pbCols : List PbColumnInfo,
      (∀ c ∈ pbCols,
        (tbl.columns.find? (fun ci => ci.id == c.columnId)).isSome = true) →
      convertColumnInfo tbl pbCols = Except.ok
        (pbCols.filterMap (fun c => tbl.columns.find? (fun ci => ci.id == c.columnId)),
         pbCols.filterMap (fun c =>
           (tbl.columns.find? (fun ci => ci.id == c.columnId)).map ColumnInfo.fieldType))) ∧
    (∀ (pre : List PbColumnInfo) (c : PbColumnInfo) (rest : List PbColumnInfo),
      (∀ x ∈ pre,
        (tbl.columns.find? (fun ci => ci.id == x.columnId)).isSome = true) →
      tbl.columns.find? (fun ci => ci.id == c.columnId) = none →
      convertColumnInfo tbl (pre ++ c :: rest)
        = Except.error (BuildErr.columnNotFound c.columnId tbl.name)) := by
  constructor
  · intro pbCols h
    induction pbCols with
    | nil => rfl
    | cons c rest ih =>
      have hc := h c (List.mem_cons_self c rest)
      obtain ⟨ci, hci⟩ := Option.isSome_iff_exists.mp hc
      have hrest := ih (fun x hx => h x (List.mem_cons_of_mem _ hx))
      rw [convertColumnInfo, hci, hrest]
      simp [List.filterMap_cons, hci]
  · intro pre c rest hok hmiss
    induction pre with
    | nil =>
      rw [List.nil_append, convertColumnInfo, hmiss]
    | cons x pre1 ih =>
      obtain ⟨ci, hci⟩ := Option.isSome_iff_exists.mp
        (hok x (List.mem_cons_self x pre1))
      rw [List.cons_append, convertColumnInfo, hci,
        ih (fun y hy => hok y (List.mem_cons_of_mem _ hy))]

/-- Witness for C6 at concrete inputs: requesting ids `[3, 1]` from the
witness table resolves both (in request order, catalog order being
`[1, 2, 3]`); requesting `[3, 7, 1]` fails with `ColumnNotFound(7)` and
the table name. -/
theorem convertColumnInfo_allOrNothing_witness :
    convertColumnInfo tblW [⟨3⟩, ⟨1⟩]
      = Except.ok ([⟨3, "query", ⟨15⟩⟩, ⟨1, "c1", ⟨3⟩⟩], [⟨15⟩, ⟨3⟩]) ∧
    convertColumnInfo tblW [⟨3⟩, ⟨7⟩, ⟨1⟩]
      = Except.error (BuildErr.columnNotFound 7 "slow_query") := by
  have h := convertColumnInfo_allOrNothing tblW
  have h1 := h.1 [⟨3⟩, ⟨1⟩] (by decide)
  have h2 := h.2 [⟨3⟩] ⟨7⟩ [⟨1⟩] (by decide) (by decide)
  exact ⟨h1.trans (by decide), h2⟩

end ResolverTheorems

section ScanSchemaTheorems

theorem idsFrom_succ (ctr k : Nat) :
    idsFrom ctr (k + 1) = (ctr + 1) :: idsFrom (ctr + 1) k := by
  simp only [idsFrom, List.range_succ_eq_map, List.map_cons, List.map_map,
    Nat.add_zero]
  congr 1
  apply List.map_congr_left
  intro a _
  simp only [Function.comp]
  omega

theorem idsFrom_append (ctr k m : Nat) :
    idsFrom ctr k ++ idsFrom (ctr + k) m = idsFrom ctr (k + m) := by
  induction k generalizing ctr with
  | zero => simp [idsFrom]
  | succ k ih =>
    rw [idsFrom_succ, List.cons_append]
    have h1 : ctr + (k + 1) = (ctr + 1) + k := by omega
    have h2 : k + 1 + m = (k + m) + 1 := by omega
    rw [h1, ih (ctr + 1), h2, idsFrom_succ]

theorem idsFrom_length (ctr k : Nat) : (idsFrom ctr k).length = k := by
  simp [idsFrom]

theorem idsFrom_nodup (ctr k : Nat) : (idsFrom ctr k).Nodup := by
  refine List.Nodup.map ?_ (List.nodup_range k)
  intro a b h
  have h1 : ctr + 1 + a = ctr + 1 + b := h
  omega

theorem idsFrom_mem (ctr k u : Nat) (h : u ∈ idsFrom ctr k) :
    ctr < u ∧ u ≤ ctr + k := by
  simp only [idsFrom, List.mem_map, List.mem_range] at h
  obtain ⟨i, hi, rfl⟩ := h
  omega

theorem scanSchemaInner_spec (col : ColumnInfo) :
    ∀ (cols : List ColumnInfo) (ctr : Nat),
      (scanSchemaInner col cols ctr).1.map Column.uniqueID
        = idsFrom ctr ((cols.filter (fun ci => ci.id == col.id)).length) ∧
      (scanSchemaInner col cols ctr).2
        = ctr + (cols.filter (fun ci => ci.id == col.id)).length ∧
      (scanSchemaInner col cols ctr).1.map Column.id
        = List.replicate ((cols.filter (fun ci => ci.id == col.id)).length) col.id := by
  intro cols
  induction cols with
  | nil => intro ctr; exact ⟨rfl, rfl, rfl⟩
  | cons ci rest ih =>
    intro ctr
    cases hci : (ci.id == col.id) with
    | false =>
      obtain ⟨h1, h2, h3⟩ := ih ctr
      simp only [scanSchemaInner, hci, Bool.false_eq_true, if_false,
        List.filter_cons, h1, h2, h3]
      exact ⟨trivial, trivial, trivial⟩
    | true =>
      obtain ⟨h1, h2, h3⟩ := ih (ctr + 1)
      simp only [scanSchemaInner, hci, if_true, allocPlanColumnID,
        List.filter_cons, List.length_cons]
      cases hsi : scanSchemaInner col rest (ctr + 1) with
      | mk more ctr2 =>
        rw [hsi] at h1 h2 h3
        refine ⟨?_, ?_, ?_⟩
        · rw [List.map_cons, h1, idsFrom_succ]
        · rw [h2]; omega
        · rw [List.map_cons, h3, List.replicate_succ]

theorem scanSchemaOuter_spec (columns : List ColumnInfo) :
    ∀ (cats : List ColumnInfo) (ctr : Nat),
      (scanSchemaOuter columns cats ctr).1.map Column.id
        = cats.flatMap (fun col =>
            (columns.filter (fun ci => ci.id == col.id)).map (fun _ => col.id)) ∧
      (scanSchemaOuter columns cats ctr).1.map Column.uniqueID
        = idsFrom ctr (scanSchemaOuter columns cats ctr).1.length ∧
      (scanSchemaOuter columns cats ctr).2
        = ctr + (scanSchemaOuter columns cats ctr).1.length := by
  intro cats
  induction cats with
  | nil => intro ctr; exact ⟨rfl, rfl, rfl⟩
  | cons col crest ih =>
    intro ctr
    obtain ⟨g1, g2, g3⟩ := scanSchemaInner_spec col columns ctr
    simp only [scanSchemaOuter]
    cases hin : scanSchemaInner col columns ctr with
    | mk s ctr1 =>
      obtain ⟨h1, h2, h3⟩ := ih ctr1
      rw [hin] at g1 g2 g3
      simp only at g1 g2 g3
      have hlen : s.length
          = (columns.filter (fun ci => ci.id == col.id)).length := by
        have hh := congrArg List.length g1
        rw [List.length_map, idsFrom_length] at hh
        exact hh
      cases hout : scanSchemaOuter columns crest ctr1 with
      | mk more ctr2 =>
        rw [hout] at h1 h2 h3
        simp only at h1 h2 h3
        simp only
        refine ⟨?_, ?_, ?_⟩
        · rw [List.map_append, g3, h1, List.flatMap_cons]
          congr 1
          rw [List.map_const']
        · rw [List.map_append, g1, h2, g2, idsFrom_append,
            List.length_append, hlen]
        · rw [h3, g2, List.length_append, hlen]
          omega

/--
C7: the Leaf Scan Builder's output schema lists the matched columns in
the order they appear in the *catalog* table's column list (one schema
column per match, carrying the catalog column id), each schema column
receives a fresh identifier from the session allocator (the consecutive
ids `ctr+1, …, ctr+k`), these identifiers are pairwise distinct, all lie
strictly above the counter value at entry and at most the counter value
at exit — so, the allocator being monotone for the session's lifetime,
no identifier is ever reused or reassigned across the build.
-/
theorem buildTableScanSchema_catalogOrder_freshIds (tbl : TableInfo)
    (columns : List ColumnInfo) (ctr : Nat) :
    (buildTableScanSchema tbl columns ctr).1.map Column.id
      = tbl.columns.flatMap (fun col =>
          (columns.filter (fun ci => ci.id == col.id)).map (fun _ => col.id)) ∧
    (buildTableScanSchema tbl columns ctr).1.map Column.uniqueID
      = idsFrom ctr (buildTableScanSchema tbl columns ctr).1.length ∧
    ((buildTableScanSchema tbl columns ctr).1.map Column.uniqueID).Nodup ∧
    (buildTableScanSchema tbl columns ctr).2
      = ctr + (buildTableScanSchema tbl columns ctr).1.length ∧
    (∀ u ∈ (buildTableScanSchema tbl columns ctr).1.map Column.uniqueID,
      ctr < u ∧ u ≤ (buildTableScanSchema tbl columns ctr).2) := by
  obtain ⟨h1, h2, h3⟩ := scanSchemaOuter_spec columns tbl.columns ctr
  refine ⟨h1, h2, ?_, h3, ?_⟩
  · rw [buildTableScanSchema, h2]
    exact idsFrom_nodup _ _
  · intro u hu
    rw [buildTableScanSchema, h2] at hu
    have := idsFrom_mem _ _ _ hu
    rw [buildTableScanSchema, h3]
    exact this

end ScanSchemaTheorems

section NoPredicateLost

variable {α : Type}

theorem isEmpty_false_of_mem {β : Type} {x : β} {l : List β} (h : x ∈ l) :
    l.isEmpty = false := by
  cases l with
  | nil => cases h
  | cons a t => rfl

/-- The residual a pushdown call returns is its incoming predicate list,
unless the node is an extractor-bearing scan, in which case it is the
extractor's residual and the call is recorded. -/
theorem pushdown_residual_cases (e : List Column → List α → List α)
    (c : PPlan α) (l : List α) :
    (predicatePushDown e c l).1 = l ∨
    ∃ sch c2, c = PPlan.node (NodeKind.memTable true sch) c2 ∧
      (predicatePushDown e c l).1 = e sch l ∧
      extractCalls c l = [(sch, l)] := by
  cases c with
  | nil => left; rfl
  | node k c2 =>
    cases k with
    | memTable ext sch =>
      cases ext with
      | false => left; rfl
      | true =>
        right
        exact ⟨sch, c2, rfl, by simp [predicatePushDown], by simp [extractCalls]⟩
    | selection conds =>
      left
      simp only [predicatePushDown]
      split <;> rfl
    | topN b n => left; rfl
    | limit n => left; rfl
    | aggregation fs gs sch st => left; rfl
    | simpleWrapper cid q => left; rfl

/--
C3: the Predicate Pushdown Pass never discards a predicate.  Every
predicate `q` sitting in some Selection node's condition list of the
input chain either still sits in some Selection node's condition list of
the rewritten chain, or was consumed by the leaf scan's extractor: it was
in the predicate list of one of the pass's `Extract` calls and not in
that call's residual.
-/
theorem predicatePushDown_noPredicateLost (e : List Column → List α → List α)
    (p : PPlan α) (preds : List α) (q : α) (h : q ∈ selConds p) :
    q ∈ selConds (predicatePushDown e p preds).2 ∨
    ∃ pr ∈ extractCalls p preds, q ∈ pr.2 ∧ q ∉ e pr.1 pr.2 := by
  induction p generalizing preds with
  | nil => simp [selConds] at h
  | node k c ih =>
    cases k with
    | memTable ext sch =>
      left
      have hout : (predicatePushDown e
          (PPlan.node (NodeKind.memTable ext sch) c) preds).2
          = PPlan.node (NodeKind.memTable ext sch) c := by
        cases ext <;> simp [predicatePushDown]
      rw [hout]
      exact h
    | selection conds =>
      simp only [selConds] at h
      rcases List.mem_append.mp h with hq | hq
      · rcases pushdown_residual_cases e c conds with hr | ⟨sch, c2, hc, hr, hcall⟩
        · left
          have hne : (predicatePushDown e c conds).1.isEmpty = false := by
            rw [hr]; exact isEmpty_false_of_mem hq
          simp only [predicatePushDown, hne, Bool.false_eq_true, if_false,
            selConds]
          exact List.mem_append.mpr (Or.inl (by rw [hr]; exact hq))
        · by_cases hqr : q ∈ e sch conds
          · left
            have hne : (predicatePushDown e c conds).1.isEmpty = false := by
              rw [hr]; exact isEmpty_false_of_mem hqr
            simp only [predicatePushDown, hne, Bool.false_eq_true, if_false,
              selConds]
            exact List.mem_append.mpr (Or.inl (by rw [hr]; exact hqr))
          · right
            refine ⟨(sch, conds), ?_, hq, hqr⟩
            rw [extractCalls, hcall]
            exact List.mem_singleton.mpr rfl
      · rcases ih conds hq with hq2 | ⟨pr, hpr, hmem, hnot⟩
        · left
          simp only [predicatePushDown]
          cases hemp : (predicatePushDown e c conds).1.isEmpty with
          | true => simp only [hemp, if_true]; exact hq2
          | false =>
            simp only [hemp, Bool.false_eq_true, if_false, selConds]
            exact List.mem_append.mpr (Or.inr hq2)
        · right
          exact ⟨pr, by rw [extractCalls]; exact hpr, hmem, hnot⟩
    | topN b n =>
      rcases ih [] h with hq2 | hq2
      · left; simpa [predicatePushDown, selConds] using hq2
      · right; simpa [extractCalls] using hq2
    | limit n =>
      rcases ih [] h with hq2 | hq2
      · left; simpa [predicatePushDown, selConds] using hq2
      · right; simpa [extractCalls] using hq2
    | aggregation fs gs sch st =>
      rcases ih [] h with hq2 | hq2
      · left; simpa [predicatePushDown, selConds] using hq2
      · right; simpa [extractCalls] using hq2
    | simpleWrapper cid qt =>
      rcases ih [] h with hq2 | hq2
      · left; simpa [predicatePushDown, selConds] using hq2
      · right; simpa [extractCalls] using hq2

/-- Witness for C3 at concrete inputs: the predicate `5` of the single
Selection of `pW3` is consumed by the all-consuming extractor — the
disjunction holds (here through an `Extract` call on `[5]` with empty
residual). -/
theorem predicatePushDown_noPredicateLost_witness :
    5 ∈ selConds (predicatePushDown eConsume pW3 []).2 ∨
    ∃ pr ∈ extractCalls pW3 ([] : List Nat), 5 ∈ pr.2 ∧ 5 ∉ eConsume pr.1 pr.2 :=
  predicatePushDown_noPredicateLost eConsume pW3 [] 5 (by decide)

end NoPredicateLost

section Idempotence

variable {α : Type}

theorem isEmpty_true_eq_nil {β : Type} {l : List β} (h : l.isEmpty = true) :
    l = [] := by
  cases l with
  | nil => rfl
  | cons a t => cases h

/--
C9 counterexample: the pass is not idempotent.  With the pure, idempotent,
sublist-returning extractor behaviour `eFilterZero` (it consumes exactly
the predicate `0`) and the chain `pCtr` = Selection [0,1] → Selection [0]
→ extractor scan, the first pass consumes the inner `0`, elides the inner
Selection and keeps the outer Selection with conditions `[0, 1]`; the
second pass, now seeing the outer Selection directly above the scan,
absorbs its `0` as well and rewrites the tree again.
-/
theorem predicatePushDown_not_idempotent :
    (predicatePushDown eFilterZero
        (predicatePushDown eFilterZero pCtr []).2 []).2
      ≠ (predicatePushDown eFilterZero pCtr []).2 ∧
    (predicatePushDown eFilterZero pCtr []).2
      = PPlan.node (NodeKind.selection [0, 1])
          (PPlan.node (NodeKind.memTable true []) PPlan.nil) ∧
    (predicatePushDown eFilterZero
        (predicatePushDown eFilterZero pCtr []).2 []).2
      = PPlan.node (NodeKind.selection [1])
          (PPlan.node (NodeKind.memTable true []) PPlan.nil) := by
  decide

/-- Stability of a pushdown run's output: provided the extractor is a
pure function with `e s [] = []` and `e s (e s l) = e s l`, and no
Selection sits directly above another Selection, re-running the pass on a
run's output with that run's residual (for a non-Selection root, any
incoming list equal to the first run's) reproduces the output exactly. -/
theorem pushdown_stable (e : List Column → List α → List α)
    (hnil : ∀ s, e s [] = []) (hidem : ∀ s l, e s (e s l) = e s l) :
    ∀ p : PPlan α, noAdjSel p = true →
      (isSelectionRoot p = false →
        ∀ l, predicatePushDown e (predicatePushDown e p l).2
               (predicatePushDown e p l).1 = predicatePushDown e p l) ∧
      predicatePushDown e (predicatePushDown e p []).2 []
        = ([], (predicatePushDown e p []).2) := by
  intro p
  induction p with
  | nil => exact fun _ => ⟨fun _ _ => rfl, rfl⟩
  | node k c ih =>
    intro hadj
    cases k with
    | memTable ext sch =>
      cases ext with
      | false => exact ⟨fun _ _ => rfl, rfl⟩
      | true =>
        constructor
        · intro _ l
          simp [predicatePushDown, hidem]
        · simp [predicatePushDown, hnil]
    | selection conds =>
      have hsel : isSelectionRoot c = false := by
        simp only [noAdjSel, Bool.and_eq_true, Bool.not_eq_true'] at hadj
        exact hadj.1
      have hadc : noAdjSel c = true := by
        simp only [noAdjSel, Bool.and_eq_true, Bool.not_eq_true'] at hadj
        exact hadj.2
      obtain ⟨ihA, _⟩ := ih hadc
      have hstab := ihA hsel conds
      constructor
      · intro hfalse _
        simp [isSelectionRoot] at hfalse
      · simp only [predicatePushDown]
        cases hemp : (predicatePushDown e c conds).1.isEmpty with
        | true =>
          simp only [hemp, if_true]
          have hn := isEmpty_true_eq_nil hemp
          rw [hn] at hstab
          rw [hstab]
          exact Prod.ext hn rfl
        | false =>
          simp only [hemp, Bool.false_eq_true, if_false, predicatePushDown,
            hstab, hemp]
    | topN b n =>
      have hadc : noAdjSel c = true := hadj
      obtain ⟨_, ihB⟩ := ih hadc
      have hsnd : (predicatePushDown e (predicatePushDown e c []).2 []).2
          = (predicatePushDown e c []).2 := by rw [ihB]
      exact ⟨fun _ l => by simp [predicatePushDown, hsnd],
        by simp [predicatePushDown, hsnd]⟩
    | limit n =>
      have hadc : noAdjSel c = true := hadj
      obtain ⟨_, ihB⟩ := ih hadc
      have hsnd : (predicatePushDown e (predicatePushDown e c []).2 []).2
          = (predicatePushDown e c []).2 := by rw [ihB]
      exact ⟨fun _ l => by simp [predicatePushDown, hsnd],
        by simp [predicatePushDown, hsnd]⟩
    | aggregation fs gs sch st =>
      have hadc : noAdjSel c = true := hadj
      obtain ⟨_, ihB⟩ := ih hadc
      have hsnd : (predicatePushDown e (predicatePushDown e c []).2 []).2
          = (predicatePushDown e c []).2 := by rw [ihB]
      exact ⟨fun _ l => by simp [predicatePushDown, hsnd],
        by simp [predicatePushDown, hsnd]⟩
    | simpleWrapper cid q =>
      have hadc : noAdjSel c = true := hadj
      obtain ⟨_, ihB⟩ := ih hadc
      have hsnd : (predicatePushDown e (predicatePushDown e c []).2 []).2
          = (predicatePushDown e c []).2 := by rw [ihB]
      exact ⟨fun _ l => by simp [predicatePushDown, hsnd],
        by simp [predicatePushDown, hsnd]⟩

/--
C9 amended: the Predicate Pushdown Pass is idempotent on every plan chain
in which no Selection node's direct child is another Selection node,
provided the extractor's `Extract` behaves as a pure function that maps
the empty predicate list to itself and is idempotent (`e s (e s l) = e s
l`); a second run with an empty incoming predicate set then returns the
first run's tree unchanged with an empty residual.  (The original claim
over *every* chain fails: see the counterexample with two stacked
Selections.)
-/
theorem predicatePushDown_idempotent_noAdjSel
    (e : List Column → List α → List α) (p : PPlan α)
    (hnil : ∀ s, e s [] = []) (hidem : ∀ s l, e s (e s l) = e s l)
    (hadj : noAdjSel p = true) :
    predicatePushDown e (predicatePushDown e p []).2 []
      = ([], (predicatePushDown e p []).2) :=
  (pushdown_stable e hnil hidem p hadj).2

/-- Witness for amended C9 at concrete inputs: the single-Selection chain
`pW9` with the all-consuming extractor; the second run reproduces the
first run's output. -/
theorem predicatePushDown_idempotent_noAdjSel_witness :
    noAdjSel pW9 = true ∧
    predicatePushDown eConsume (predicatePushDown eConsume pW9 []).2 []
      = ([], (predicatePushDown eConsume pW9 []).2) :=
  ⟨by decide,
   predicatePushDown_idempotent_noAdjSel eConsume pW9
     (fun _ => rfl) (fun _ _ => rfl) (by decide)⟩

end Idempotence

end PbToPlan
